import Mathlib

/-!
Shallow embedding of `act` (src/main.rs), a terminal countdown timer, and
verification of its specification claims.

Modelling conventions:
* Rust `u64`/`u16` arithmetic is modelled on `Nat`; operations that panic in
  the source (checked arithmetic overflow in debug builds, `unwrap` on an
  `Err`, `unimplemented!`) are modelled as `Except.error` values.
* Strings are modelled as `List Char`; `&str` iteration is structural
  recursion over the list.
* The render/input loop is modelled as a step function over an explicit
  `LoopState`, driven by a list of per-frame inputs (wall-clock instant,
  terminal size, buffered key events).
-/

namespace Act

/-- Failure modes of `duration_from_string` (all are panics in the source:
`u64::from_str_radix(..).unwrap()` on an empty or overflowing digit run, and
`unimplemented!()` on any other character). -/
inductive ParseErr where
  | emptyNum : ParseErr
  | invalidDigit : ParseErr
  | overflow : ParseErr
  | unexpected : Char → ParseErr
  deriving DecidableEq, Repr

/-- `2 ^ 64`, the number of values of Rust's `u64`. -/
def U64 : Nat := 2 ^ 64

/-- `2 ^ 16`, the number of values of Rust's `u16`. -/
def U16 : Nat := 2 ^ 16

/-- Rust `char::is_digit(10)`: the character is one of `'0'..='9'`. -/
def isDigit10 (c : Char) : Bool := 48 ≤ c.toNat && c.toNat ≤ 57

/-- Value of a big-endian decimal digit string, as accumulated by
`u64::from_str_radix(s, 10)`. -/
def digitsVal (s : List Char) : Nat :=
  s.foldl (fun a c => a * 10 + (c.toNat - 48)) 0

/-- `u64::from_str_radix(numbers, 10)` followed by `.unwrap()`: errors on an
empty string, a non-digit character, or a value not fitting in `u64`. -/
def fromStrRadix10 (s : List Char) : Except ParseErr Nat :=
  if s = [] then .error .emptyNum
  else if s.all isDigit10 then
    if digitsVal s < U64 then .ok (digitsVal s) else .error .overflow
  else .error .invalidDigit

/-- `u64` multiplication; overflow panics (debug-build checked arithmetic). -/
def checkedMul (a b : Nat) : Except ParseErr Nat :=
  if a * b < U64 then .ok (a * b) else .error .overflow

/-- `u64` addition; overflow panics (debug-build checked arithmetic). -/
def checkedAdd (a b : Nat) : Except ParseErr Nat :=
  if a + b < U64 then .ok (a + b) else .error .overflow

/-- One iteration of the `for character in string.chars()` loop of
`duration_from_string`: the state is the pending digit run `numbers` and the
accumulated `seconds`. -/
def stepDFS (st : List Char × Nat) (c : Char) : Except ParseErr (List Char × Nat) :=
  let numbers := st.1
  let seconds := st.2
  if c = 's' then
    match fromStrRadix10 numbers with
    | .error e => .error e
    | .ok v =>
      match checkedAdd seconds v with
      | .error e => .error e
      | .ok s₁ => .ok ([], s₁)
  else if c = 'm' then
    match fromStrRadix10 numbers with
    | .error e => .error e
    | .ok v =>
      match checkedMul v 60 with
      | .error e => .error e
      | .ok v₁ =>
        match checkedAdd seconds v₁ with
        | .error e => .error e
        | .ok s₁ => .ok ([], s₁)
  else if c = 'h' then
    match fromStrRadix10 numbers with
    | .error e => .error e
    | .ok v =>
      match checkedMul v 60 with
      | .error e => .error e
      | .ok v₁ =>
        match checkedMul v₁ 60 with
        | .error e => .error e
        | .ok v₂ =>
          match checkedAdd seconds v₂ with
          | .error e => .error e
          | .ok s₁ => .ok ([], s₁)
  else if c = 'd' then
    match fromStrRadix10 numbers with
    | .error e => .error e
    | .ok v =>
      match checkedMul v 60 with
      | .error e => .error e
      | .ok v₁ =>
        match checkedMul v₁ 60 with
        | .error e => .error e
        | .ok v₂ =>
          match checkedMul v₂ 24 with
          | .error e => .error e
          | .ok v₃ =>
            match checkedAdd seconds v₃ with
            | .error e => .error e
            | .ok s₁ => .ok ([], s₁)
  else if isDigit10 c then .ok (numbers ++ [c], seconds)
  else if c = ' ' then .ok (numbers, seconds)
  else .error (.unexpected c)

/-- The character loop of `duration_from_string`, with early exit on panic. -/
def dfsLoop : List Char → List Char × Nat → Except ParseErr (List Char × Nat)
  | [], st => .ok st
  | c :: cs, st =>
    match stepDFS st c with
    | .error e => .error e
    | .ok st₁ => dfsLoop cs st₁

/-- `duration_from_string`: parses a compound duration string into seconds.
The final pending digit run is discarded (the source returns
`Duration::from_secs(seconds)` without inspecting `numbers`). -/
def duration_from_string (s : List Char) : Except ParseErr Nat :=
  match dfsLoop s ([], 0) with
  | .error e => .error e
  | .ok st => .ok st.2

example : duration_from_string "30s".toList = .ok 30 := rfl
example : duration_from_string "35m".toList = .ok 2100 := rfl
example : duration_from_string "3h".toList = .ok 10800 := rfl
example : duration_from_string "25m100s".toList = .ok 1600 := rfl
example : duration_from_string "1h1h1h".toList = .ok 10800 := rfl
example : duration_from_string "1x".toList = .error (.unexpected 'x') := rfl
example : duration_from_string "h".toList = .error .emptyNum := rfl
example : duration_from_string "5".toList = .ok 0 := rfl
example : duration_from_string "1 0s".toList = .ok 10 := rfl
example : duration_from_string "".toList = .ok 0 := rfl

/-- Decimal rendering of a `u64`, as produced by Rust's `format!("{}", n)`:
no leading zeros, and `0` renders as `"0"`. `Nat.toDigits 10` implements
exactly this. -/
def numChars (n : Nat) : List Char := Nat.toDigits 10 n

/-- `string_from_duration`: canonical compact rendering of a duration of `d`
seconds, mirroring the source's field computations and branch structure. -/
def string_from_duration (d : Nat) : List Char :=
  let seconds := d % 60
  let minutes := d / 60 % 60
  let hours := d / 60 / 60 % 24
  let days := d / 60 / 60 / 24
  if days > 0 then
    numChars days ++ 'd' :: (numChars hours ++ 'h' :: (numChars minutes ++ 'm' :: (numChars seconds ++ ['s'])))
  else if hours > 0 then
    numChars hours ++ 'h' :: (numChars minutes ++ 'm' :: (numChars seconds ++ ['s']))
  else if minutes > 0 then
    numChars minutes ++ 'm' :: (numChars seconds ++ ['s'])
  else
    numChars seconds ++ ['s']

/-- Formatter written from the specification's words: `days = d/86400`,
`hours = (d/3600) mod 24`, `minutes = (d/60) mod 60`, `seconds = d mod 60`,
output from the largest non-zero unit downward with all lower tiers present.
Used only to compare the source formatter against the spec. -/
def formatSpec (d : Nat) : List Char :=
  let seconds := d % 60
  let minutes := d / 60 % 60
  let hours := d / 3600 % 24
  let days := d / 86400
  if days > 0 then
    numChars days ++ 'd' :: (numChars hours ++ 'h' :: (numChars minutes ++ 'm' :: (numChars seconds ++ ['s'])))
  else if hours > 0 then
    numChars hours ++ 'h' :: (numChars minutes ++ 'm' :: (numChars seconds ++ ['s']))
  else if minutes > 0 then
    numChars minutes ++ 'm' :: (numChars seconds ++ ['s'])
  else
    numChars seconds ++ ['s']

example : string_from_duration 0 = "0s".toList := rfl
example : string_from_duration 90 = "1m30s".toList := rfl
example : string_from_duration 3661 = "1h1m1s".toList := rfl
example : string_from_duration 90061 = "1d1h1m1s".toList := rfl

/-- A well-formed duration token: a non-empty run of decimal digits followed
by one of the four unit letters. -/
structure Token where
  ds : List Char
  unit : Char

/-- The token's digit run is non-empty and all digits, and its unit letter is
one of `d`, `h`, `m`, `s`. -/
def wfToken (t : Token) : Prop :=
  t.ds ≠ [] ∧ t.ds.all isDigit10 = true ∧ (t.unit = 'd' ∨ t.unit = 'h' ∨ t.unit = 'm' ∨ t.unit = 's')

instance (t : Token) : Decidable (wfToken t) := by
  unfold wfToken
  exact inferInstance

/-- The characters of a token: digits then the unit letter. -/
def renderToken (t : Token) : List Char := t.ds ++ [t.unit]

/-- Seconds per unit letter. -/
def unitSecs (u : Char) : Nat :=
  if u = 'd' then 86400 else if u = 'h' then 3600 else if u = 'm' then 60 else 1

/-- Contribution of one token: digit-run value times unit seconds. -/
def tokVal (t : Token) : Nat := digitsVal t.ds * unitSecs t.unit

/-- Total seconds denoted by a token list. -/
def tokensVal (ts : List Token) : Nat := (ts.map tokVal).sum

/-!  The render/input loop (`run`).  -/

/-- A decoded key, as matched by the source's key dispatch. -/
inductive Key where
  | ctrlC : Key
  | esc : Key
  | space : Key
  | other : Key
  deriving DecidableEq, Repr

/-- One item of the async key iterator: `Ok` with a decoded key, or `Err`
(a key event that failed to decode). -/
abbrev KeyEvent := Except Unit Key

instance : DecidableEq KeyEvent := fun
  | .ok a, .ok b =>
    match decEq a b with
    | isTrue h => isTrue (by rw [h])
    | isFalse h => isFalse (by intro hh; cases hh; exact h rfl)
  | .ok _, .error _ => isFalse (by intro h; exact Except.noConfusion h)
  | .error _, .ok _ => isFalse (by intro h; exact Except.noConfusion h)
  | .error a, .error b =>
    match decEq a b with
    | isTrue h => isTrue (by rw [h])
    | isFalse h => isFalse (by intro hh; cases hh; exact h rfl)

/-- Outcome of draining the buffered key events of one frame. -/
inductive KeysOut where
  | quit : KeysOut
  | fault : KeysOut
  | cont : Bool → KeysOut
  deriving DecidableEq, Repr

/-- The `while let Some(key) = stdin.next()` drain: `key.unwrap()` panics on a
decode error (`fault`); `Ctrl('c')` and `Esc` return `false` (`quit`);
`Char(' ')` toggles `paused`; anything else is ignored. -/
def processKeys : List KeyEvent → Bool → KeysOut
  | [], p => .cont p
  | .error _ :: _, _ => .fault
  | .ok k :: rest, p =>
    if k = .ctrlC then .quit
    else if k = .esc then .quit
    else if k = .space then processKeys rest (!p)
    else processKeys rest p

/-- Terminal control operations written by the loop and the guard. -/
inductive TermOp where
  | hideCursor : TermOp
  | clearAll : TermOp
  | fgGreen : TermOp
  | fgReset : TermOp
  | showCursor : TermOp
  | bgReset : TermOp
  | goto : Nat → Nat → TermOp
  | text : List Char → TermOp
  | flush : TermOp
  deriving DecidableEq, Repr

/-- What the `ConsoleReset` guard's `Drop` writes: show the cursor, reset the
foreground color, reset the background color. -/
def consoleResetOps : List TermOp := [TermOp.showCursor, TermOp.fgReset, TermOp.bgReset]

/-- Per-frame external input: the wall-clock instant at the top of the frame,
the terminal dimensions reported by `terminal_size()`, and the key events
buffered since the last frame. -/
structure Frame where
  now : Nat
  width : Nat
  height : Nat
  keys : List KeyEvent

/-- Mutable state of the loop: accumulated `elapsed`, the `paused` flag, and
`dt`, the instant of the previous frame. -/
structure LoopState where
  elapsed : Nat
  paused : Bool
  dt : Nat
  deriving DecidableEq, Repr

/-- The elapsed value after the top-of-frame update: unchanged while paused,
otherwise increased by the wall-clock time since the previous frame. -/
def newElapsed (st : LoopState) (f : Frame) : Nat :=
  if st.paused then st.elapsed else st.elapsed + (f.now - st.dt)

/-- `u16` subtraction; underflow panics (debug-build checked arithmetic). -/
def csub16 (a b : Nat) : Except Unit Nat :=
  if b ≤ a then .ok (a - b) else .error ()

/-- `u16` addition; overflow panics (debug-build checked arithmetic). -/
def cadd16 (a b : Nat) : Except Unit Nat :=
  if a + b < U16 then .ok (a + b) else .error ()

/-- The cursor position for line `i`:
`Goto(window_width / 2 - remaining_width as u16 / 2,
window_height / 2 - remaining_lines.len() as u16 / 2 + i as u16)`.
The `as u16` casts truncate modulo `2 ^ 16`; no clamping is applied. -/
def gotoCoords (w h width nLines i : Nat) : Except Unit (Nat × Nat) :=
  match csub16 (w / 2) (width % U16 / 2) with
  | .error e => .error e
  | .ok x =>
    match csub16 (h / 2) (nLines % U16 / 2) with
    | .error e => .error e
    | .ok y₀ =>
      match cadd16 y₀ (i % U16) with
      | .error e => .error e
      | .ok y => .ok (x, y)

/-- Rust `str::split('\n')`: every input yields at least one (possibly empty)
segment. -/
def splitNl : List Char → List (List Char)
  | [] => [[]]
  | c :: cs =>
    match splitNl cs with
    | [] => [[c]]
    | l :: ls => if c = '\n' then [] :: l :: ls else (c :: l) :: ls

/-- `remaining_lines.iter().fold(0, |acc, line| acc.max(line.len()))`. -/
def lineWidth (lines : List (List Char)) : Nat :=
  lines.foldl (fun acc l => max acc l.length) 0

/-- The per-line write loop; emits `Goto` and the line text for each line, and
stops with a fault when the centering arithmetic panics. -/
def renderLines (w h width nLines : Nat) : List (List Char) → Nat → List TermOp × Bool
  | [], _ => ([], true)
  | line :: rest, i =>
    match gotoCoords w h width nLines i with
    | .error _ => ([], false)
    | .ok xy =>
      let r := renderLines w h width nLines rest (i + 1)
      (TermOp.goto xy.1 xy.2 :: TermOp.text line :: r.1, r.2)

/-- One frame's drawing: clear, optional pause highlight, the centered lines,
then color reset and flush (the latter two only if no line write panicked). -/
def renderFrame (w h : Nat) (paused : Bool) (txt : List Char) : List TermOp × Bool :=
  let lines := splitNl txt
  let width := lineWidth lines
  let r := renderLines w h width lines.length lines 0
  ([TermOp.clearAll] ++ (if paused then [TermOp.fgGreen] else [])
    ++ r.1 ++ (if r.2 then [TermOp.fgReset, TermOp.flush] else []), r.2)

/-- Result of one loop iteration. -/
inductive StepRes where
  | finished : Bool → StepRes
  | fault : StepRes
  | next : LoopState → StepRes
  deriving DecidableEq, Repr

/-- One iteration of the `loop` in `run`, for countdown `c`. `banner` is the
external text-to-banner collaborator (`large_text`, which shells out to
`figlet`); the source always applies it (`is_text_large = true`). -/
def stepFrame (c : Nat) (banner : List Char → List Char) (st : LoopState) (f : Frame) :
    StepRes × List TermOp :=
  let elapsed := newElapsed st f
  if elapsed ≤ c then
    let txt := banner (string_from_duration (c - elapsed))
    let r := renderFrame f.width f.height st.paused txt
    if r.2 then
      match processKeys f.keys st.paused with
      | .quit => (.finished false, r.1)
      | .fault => (.fault, r.1)
      | .cont p => (.next ⟨elapsed, p, f.now⟩, r.1)
    else (.fault, r.1)
  else (.finished true, [])

/-- Result of running the loop on a finite list of frame inputs: returned
`true`/`false`, panicked, or still running (state after the last frame). -/
inductive RunRes where
  | finished : Bool → RunRes
  | fault : RunRes
  | more : LoopState → RunRes
  deriving DecidableEq, Repr

/-- The `loop` of `run`, iterated over a list of frame inputs, accumulating
the terminal-operation trace. -/
def runLoopAux (c : Nat) (banner : List Char → List Char) :
    LoopState → List Frame → RunRes × List TermOp
  | st, [] => (.more st, [])
  | st, f :: fs =>
    match stepFrame c banner st f with
    | (.finished b, ops) => (.finished b, ops)
    | (.fault, ops) => (.fault, ops)
    | (.next st₁, ops) =>
      let r := runLoopAux c banner st₁ fs
      (r.1, ops ++ r.2)

/-- `run(countdown)`: the guard object is created first, the cursor is hidden,
the loop runs from `elapsed = 0`, `paused = false`, `dt = t₀` (the instant
`run` starts). When the scope exits — normal return (`finished`) or panic
(`fault`) — the `ConsoleReset` drop appends its restoration writes; while the
loop is still running (`more`) the scope has not exited. -/
def runOps (c : Nat) (banner : List Char → List Char) (t₀ : Nat) (frames : List Frame) :
    RunRes × List TermOp :=
  let r := runLoopAux c banner ⟨0, false, t₀⟩ frames
  match r.1 with
  | .more st => (.more st, TermOp.hideCursor :: r.2)
  | res => (res, (TermOp.hideCursor :: r.2) ++ consoleResetOps)

/-- The loop never leaves the loop body through `more`: that constructor only
marks that the supplied frame inputs ran out. -/
def scopeExits : RunRes → Bool
  | .more _ => false
  | _ => true

/-!  Lemmas about the parser.  -/

theorem dfsLoop_append_ok {l₁ l₂ : List Char} {st st₁ : List Char × Nat}
    (h : dfsLoop l₁ st = .ok st₁) : dfsLoop (l₁ ++ l₂) st = dfsLoop l₂ st₁ := by
  induction l₁ generalizing st with
  | nil =>
    simp only [dfsLoop] at h
    cases h
    rfl
  | cons c cs ih =>
    rw [List.cons_append]
    simp only [dfsLoop] at h ⊢
    cases hc : stepDFS st c with
    | error e => rw [hc] at h; simp at h
    | ok st₂ => rw [hc] at h; exact ih h

theorem stepDFS_digit {c : Char} (hc : isDigit10 c = true) (nums : List Char) (acc : Nat) :
    stepDFS (nums, acc) c = .ok (nums ++ [c], acc) := by
  have hs : ¬(c = 's') := by rintro rfl; exact absurd hc (by decide)
  have hm : ¬(c = 'm') := by rintro rfl; exact absurd hc (by decide)
  have hh : ¬(c = 'h') := by rintro rfl; exact absurd hc (by decide)
  have hd : ¬(c = 'd') := by rintro rfl; exact absurd hc (by decide)
  simp [stepDFS, hs, hm, hh, hd, hc]

theorem dfsLoop_digits {ds : List Char} (h : ds.all isDigit10 = true)
    (nums : List Char) (acc : Nat) :
    dfsLoop ds (nums, acc) = .ok (nums ++ ds, acc) := by
  induction ds generalizing nums with
  | nil => simp [dfsLoop]
  | cons c cs ih =>
    simp only [List.all_cons, Bool.and_eq_true] at h
    simp only [dfsLoop, stepDFS_digit h.1]
    rw [ih h.2]
    simp

theorem stepDFS_space (st : List Char × Nat) : stepDFS st ' ' = .ok st := rfl

theorem dfsLoop_filter_space (s : List Char) (st : List Char × Nat) :
    dfsLoop s st = dfsLoop (s.filter (fun c => !(c == ' '))) st := by
  induction s generalizing st with
  | nil => rfl
  | cons c cs ih =>
    by_cases hc : c = ' '
    · subst hc
      rw [List.filter_cons, if_neg (by decide)]
      calc dfsLoop (' ' :: cs) st = dfsLoop cs st := by
            simp [dfsLoop, stepDFS_space]
        _ = _ := ih st
    · have hpc : (!(c == ' ')) = true := by simp [hc]
      rw [List.filter_cons, if_pos hpc]
      simp only [dfsLoop]
      cases hst : stepDFS st c with
      | error e => rfl
      | ok st₁ => exact ih st₁

/-- `duration_from_string` ignores space characters wherever they occur. -/
theorem duration_from_string_filter_space (s : List Char) :
    duration_from_string s = duration_from_string (s.filter (fun c => !(c == ' '))) := by
  simp only [duration_from_string, dfsLoop_filter_space s ([], 0)]

theorem stepDFS_unit {u : Char} (hu : u = 'd' ∨ u = 'h' ∨ u = 'm' ∨ u = 's')
    {ds : List Char} (hne : ¬(ds = [])) (hall : ds.all isDigit10 = true)
    (acc : Nat) (hlt : acc + digitsVal ds * unitSecs u < U64) :
    stepDFS (ds, acc) u = .ok ([], acc + digitsVal ds * unitSecs u) := by
  have hU : U64 = 18446744073709551616 := rfl
  rcases hu with rfl | rfl | rfl | rfl
  · have hus : unitSecs 'd' = 86400 := rfl
    rw [hus] at hlt ⊢
    rw [hU] at hlt
    have h₀ : digitsVal ds < 18446744073709551616 := by omega
    have h₁ : digitsVal ds * 60 < 18446744073709551616 := by omega
    have h₂ : digitsVal ds * 60 * 60 < 18446744073709551616 := by omega
    have h₃ : digitsVal ds * 60 * 60 * 24 < 18446744073709551616 := by omega
    have h₄ : acc + digitsVal ds * 60 * 60 * 24 < 18446744073709551616 := by omega
    simp [stepDFS, fromStrRadix10, checkedMul, checkedAdd, hU, hne, hall, h₀, h₁, h₂, h₃, h₄]
    omega
  · have hus : unitSecs 'h' = 3600 := rfl
    rw [hus] at hlt ⊢
    rw [hU] at hlt
    have h₀ : digitsVal ds < 18446744073709551616 := by omega
    have h₁ : digitsVal ds * 60 < 18446744073709551616 := by omega
    have h₂ : digitsVal ds * 60 * 60 < 18446744073709551616 := by omega
    have h₃ : acc + digitsVal ds * 60 * 60 < 18446744073709551616 := by omega
    simp [stepDFS, fromStrRadix10, checkedMul, checkedAdd, hU, hne, hall, h₀, h₁, h₂, h₃]
    omega
  · have hus : unitSecs 'm' = 60 := rfl
    rw [hus] at hlt ⊢
    rw [hU] at hlt
    have h₀ : digitsVal ds < 18446744073709551616 := by omega
    have h₁ : digitsVal ds * 60 < 18446744073709551616 := by omega
    have h₂ : acc + digitsVal ds * 60 < 18446744073709551616 := by omega
    simp [stepDFS, fromStrRadix10, checkedMul, checkedAdd, hU, hne, hall, h₀, h₁, h₂]
  · have hus : unitSecs 's' = 1 := rfl
    rw [hus] at hlt ⊢
    rw [hU] at hlt
    have h₀ : digitsVal ds < 18446744073709551616 := by omega
    have h₁ : acc + digitsVal ds < 18446744073709551616 := by omega
    simp [stepDFS, fromStrRadix10, checkedAdd, hU, hne, hall, h₀, h₁]

theorem tokensVal_cons (t : Token) (ts : List Token) :
    tokensVal (t :: ts) = tokVal t + tokensVal ts := by
  simp [tokensVal]

theorem dfsLoop_tokens (ts : List Token) (acc : Nat)
    (hwf : ∀ t ∈ ts, wfToken t) (hlt : acc + tokensVal ts < U64) :
    dfsLoop ((ts.map renderToken).flatten) ([], acc) = .ok ([], acc + tokensVal ts) := by
  induction ts generalizing acc with
  | nil => simp [tokensVal, dfsLoop]
  | cons t rest ih =>
    obtain ⟨hne, hall, hu⟩ := hwf t (by simp)
    rw [tokensVal_cons] at hlt ⊢
    have htv : tokVal t ≤ tokVal t + tokensVal rest := Nat.le_add_right _ _
    have hlt₁ : acc + tokVal t < U64 := by omega
    simp only [List.map_cons, List.flatten_cons, renderToken, List.append_assoc]
    have h₁ : dfsLoop t.ds ([], acc) = .ok (([] : List Char) ++ t.ds, acc) :=
      dfsLoop_digits hall [] acc
    rw [List.nil_append] at h₁
    rw [dfsLoop_append_ok h₁, List.singleton_append]
    simp only [dfsLoop]
    rw [stepDFS_unit hu (by simpa using hne) hall acc hlt₁]
    have hiv : dfsLoop (List.map renderToken rest).flatten ([], acc + digitsVal t.ds * unitSecs t.unit) =
        .ok ([], acc + tokVal t + tokensVal rest) :=
      ih (acc + tokVal t) (fun t ht => hwf t (List.mem_cons_of_mem _ ht)) (by omega)
    show dfsLoop (List.map renderToken rest).flatten ([], acc + digitsVal t.ds * unitSecs t.unit) =
      .ok ([], acc + (tokVal t + tokensVal rest))
    rw [hiv]
    congr 2
    omega

/-- Parsing the concatenation of well-formed tokens yields their total value,
provided that total fits in `u64`. -/
theorem duration_from_string_tokens (ts : List Token)
    (hwf : ∀ t ∈ ts, wfToken t) (hlt : tokensVal ts < U64) :
    duration_from_string ((ts.map renderToken).flatten) = .ok (tokensVal ts) := by
  have h := dfsLoop_tokens ts 0 hwf (by omega)
  rw [Nat.zero_add] at h
  simp only [duration_from_string, h]

/-- A character the parser's `match` has no arm for: not a unit letter, not a
digit, not a space.  Such a character hits `unimplemented!()`. -/
def badChar (c : Char) : Prop :=
  ¬(c = 's' ∨ c = 'm' ∨ c = 'h' ∨ c = 'd' ∨ isDigit10 c = true ∨ c = ' ')

instance (c : Char) : Decidable (badChar c) := by
  unfold badChar
  exact inferInstance

theorem stepDFS_badChar {c : Char} (h : badChar c) (st : List Char × Nat) :
    stepDFS st c = .error (.unexpected c) := by
  unfold badChar at h
  push_neg at h
  obtain ⟨h₁, h₂, h₃, h₄, h₅, h₆⟩ := h
  simp [stepDFS, h₁, h₂, h₃, h₄, h₅, h₆]

theorem dfsLoop_badChar {s : List Char} (hbad : ∃ c ∈ s, badChar c)
    (st : List Char × Nat) : ∃ e, dfsLoop s st = .error e := by
  induction s generalizing st with
  | nil => simp at hbad
  | cons c cs ih =>
    obtain ⟨c₀, hc₀, hb⟩ := hbad
    rcases List.mem_cons.mp hc₀ with rfl | hmem
    · exact ⟨.unexpected c₀, by simp [dfsLoop, stepDFS_badChar hb]⟩
    · simp only [dfsLoop]
      cases hc : stepDFS st c with
      | error e => exact ⟨e, rfl⟩
      | ok st₁ => exact ih ⟨c₀, hmem, hb⟩ st₁

theorem dfsLoop_spaces {sp : List Char} (h : sp.all (fun c => c == ' ') = true)
    (st : List Char × Nat) : dfsLoop sp st = .ok st := by
  induction sp with
  | nil => rfl
  | cons c cs ih =>
    simp only [List.all_cons, Bool.and_eq_true, beq_iff_eq] at h
    obtain ⟨rfl, h₂⟩ := h
    simp only [dfsLoop, stepDFS_space]
    exact ih h₂

theorem stepDFS_unit_empty {u : Char} (hu : u = 'd' ∨ u = 'h' ∨ u = 'm' ∨ u = 's')
    (acc : Nat) : stepDFS ([], acc) u = .error .emptyNum := by
  rcases hu with rfl | rfl | rfl | rfl <;> simp [stepDFS, fromStrRadix10]

/-- A unit letter whose preceding digit run is empty (here: only spaces before
it) makes the whole parse fail with the empty-digit-run panic. -/
theorem duration_from_string_empty_run {sp : List Char} (hsp : sp.all (fun c => c == ' ') = true)
    {u : Char} (hu : u = 'd' ∨ u = 'h' ∨ u = 'm' ∨ u = 's') (s : List Char) :
    duration_from_string (sp ++ u :: s) = .error .emptyNum := by
  unfold duration_from_string
  rw [dfsLoop_append_ok (dfsLoop_spaces hsp ([], 0))]
  simp [dfsLoop, stepDFS_unit_empty hu]

/-- Appending a trailing digit run to any successfully parsed input leaves the
result unchanged: the digits are silently discarded. -/
theorem duration_from_string_append_digits {s ds : List Char} {v : Nat}
    (hds : ds.all isDigit10 = true) (h : duration_from_string s = .ok v) :
    duration_from_string (s ++ ds) = .ok v := by
  unfold duration_from_string at h ⊢
  cases hs : dfsLoop s ([], 0) with
  | error e => rw [hs] at h; exact Except.noConfusion h
  | ok st =>
    rw [hs] at h
    obtain ⟨nums, acc⟩ := st
    cases h
    rw [dfsLoop_append_ok hs, dfsLoop_digits hds nums acc]

theorem checkedAdd_lt {a b r : Nat} (h : checkedAdd a b = .ok r) : r < U64 := by
  unfold checkedAdd at h
  split at h
  · cases h; assumption
  · exact Except.noConfusion h

theorem stepDFS_lt {st st₁ : List Char × Nat} {c : Char}
    (h : stepDFS st c = .ok st₁) (hlt : st.2 < U64) : st₁.2 < U64 := by
  obtain ⟨nums, acc⟩ := st
  simp only [stepDFS] at h
  by_cases h₁ : c = 's'
  · rw [if_pos h₁] at h
    cases hfr : fromStrRadix10 nums with
    | error e => rw [hfr] at h; exact Except.noConfusion h
    | ok v =>
      rw [hfr] at h; dsimp only at h
      cases hca : checkedAdd acc v with
      | error e => rw [hca] at h; exact Except.noConfusion h
      | ok s₁ => rw [hca] at h; cases h; exact checkedAdd_lt hca
  rw [if_neg h₁] at h
  by_cases h₂ : c = 'm'
  · rw [if_pos h₂] at h
    cases hfr : fromStrRadix10 nums with
    | error e => rw [hfr] at h; exact Except.noConfusion h
    | ok v =>
      rw [hfr] at h; dsimp only at h
      cases hm₁ : checkedMul v 60 with
      | error e => rw [hm₁] at h; exact Except.noConfusion h
      | ok v₁ =>
        rw [hm₁] at h; dsimp only at h
        cases hca : checkedAdd acc v₁ with
        | error e => rw [hca] at h; exact Except.noConfusion h
        | ok s₁ => rw [hca] at h; cases h; exact checkedAdd_lt hca
  rw [if_neg h₂] at h
  by_cases h₃ : c = 'h'
  · rw [if_pos h₃] at h
    cases hfr : fromStrRadix10 nums with
    | error e => rw [hfr] at h; exact Except.noConfusion h
    | ok v =>
      rw [hfr] at h; dsimp only at h
      cases hm₁ : checkedMul v 60 with
      | error e => rw [hm₁] at h; exact Except.noConfusion h
      | ok v₁ =>
        rw [hm₁] at h; dsimp only at h
        cases hm₂ : checkedMul v₁ 60 with
        | error e => rw [hm₂] at h; exact Except.noConfusion h
        | ok v₂ =>
          rw [hm₂] at h; dsimp only at h
          cases hca : checkedAdd acc v₂ with
          | error e => rw [hca] at h; exact Except.noConfusion h
          | ok s₁ => rw [hca] at h; cases h; exact checkedAdd_lt hca
  rw [if_neg h₃] at h
  by_cases h₄ : c = 'd'
  · rw [if_pos h₄] at h
    cases hfr : fromStrRadix10 nums with
    | error e => rw [hfr] at h; exact Except.noConfusion h
    | ok v =>
      rw [hfr] at h; dsimp only at h
      cases hm₁ : checkedMul v 60 with
      | error e => rw [hm₁] at h; exact Except.noConfusion h
      | ok v₁ =>
        rw [hm₁] at h; dsimp only at h
        cases hm₂ : checkedMul v₁ 60 with
        | error e => rw [hm₂] at h; exact Except.noConfusion h
        | ok v₂ =>
          rw [hm₂] at h; dsimp only at h
          cases hm₃ : checkedMul v₂ 24 with
          | error e => rw [hm₃] at h; exact Except.noConfusion h
          | ok v₃ =>
            rw [hm₃] at h; dsimp only at h
            cases hca : checkedAdd acc v₃ with
            | error e => rw [hca] at h; exact Except.noConfusion h
            | ok s₁ => rw [hca] at h; cases h; exact checkedAdd_lt hca
  rw [if_neg h₄] at h
  by_cases h₅ : isDigit10 c = true
  · rw [if_pos h₅] at h
    cases h
    exact hlt
  rw [if_neg h₅] at h
  by_cases h₆ : c = ' '
  · rw [if_pos h₆] at h
    cases h
    exact hlt
  rw [if_neg h₆] at h
  exact Except.noConfusion h

theorem dfsLoop_lt {s : List Char} {st st₁ : List Char × Nat}
    (h : dfsLoop s st = .ok st₁) (hlt : st.2 < U64) : st₁.2 < U64 := by
  induction s generalizing st with
  | nil => simp only [dfsLoop] at h; cases h; exact hlt
  | cons c cs ih =>
    simp only [dfsLoop] at h
    cases hc : stepDFS st c with
    | error e => rw [hc] at h; exact Except.noConfusion h
    | ok st₂ => rw [hc] at h; exact ih h (stepDFS_lt hc hlt)

/-- Every successfully parsed value fits in `u64`. -/
theorem duration_from_string_lt {s : List Char} {v : Nat}
    (h : duration_from_string s = .ok v) : v < U64 := by
  unfold duration_from_string at h
  cases hs : dfsLoop s ([], 0) with
  | error e => rw [hs] at h; exact Except.noConfusion h
  | ok st =>
    rw [hs] at h
    cases h
    exact dfsLoop_lt hs (by decide)

/-!  Lemmas about decimal rendering (`numChars`).  -/

theorem digitChar_toNat {d : Nat} (h : d < 10) : (Nat.digitChar d).toNat - 48 = d := by
  interval_cases d <;> rfl

theorem digitChar_isDigit10 {d : Nat} (h : d < 10) : isDigit10 (Nat.digitChar d) = true := by
  interval_cases d <;> rfl

theorem toDigitsCore_eq (fuel : Nat) : ∀ (n : Nat) (ds : List Char), 0 < n → n < fuel →
    Nat.toDigitsCore 10 fuel n ds = (Nat.digits 10 n).reverse.map Nat.digitChar ++ ds := by
  induction fuel with
  | zero => intro n ds h1 h2; omega
  | succ fuel ih =>
    intro n ds h1 h2
    rw [Nat.toDigitsCore]
    by_cases hn : n / 10 = 0
    · rw [if_pos hn]
      have hdig : Nat.digits 10 n = [n % 10] := by
        rw [Nat.digits_def' (by norm_num) h1, hn]
        simp
      rw [hdig]
      simp
    · rw [if_neg hn]
      have hlt : n / 10 < fuel := by
        have := Nat.div_lt_self h1 (by norm_num : (1 : Nat) < 10)
        omega
      rw [ih (n / 10) _ (Nat.pos_of_ne_zero hn) hlt]
      rw [Nat.digits_def' (by norm_num) h1]
      simp

theorem foldl_digits_map (L : List Nat) (hL : ∀ d ∈ L, d < 10) (a : Nat) :
    List.foldl (fun x c => x * 10 + (c.toNat - 48)) a (L.reverse.map Nat.digitChar)
      = a * 10 ^ L.length + Nat.ofDigits 10 L := by
  induction L generalizing a with
  | nil => simp [Nat.ofDigits]
  | cons d tl ih =>
    rw [List.reverse_cons, List.map_append, List.foldl_append,
      ih (fun x hx => hL x (List.mem_cons_of_mem _ hx))]
    simp only [List.map_cons, List.map_nil, List.foldl_cons, List.foldl_nil,
      digitChar_toNat (hL d (by simp)), Nat.ofDigits_cons, List.length_cons]
    ring

theorem digitsVal_numChars (n : Nat) : digitsVal (numChars n) = n := by
  rcases Nat.eq_zero_or_pos n with rfl | hn
  · rfl
  · unfold numChars Nat.toDigits
    rw [toDigitsCore_eq (n + 1) n [] hn (Nat.lt_succ_self n), List.append_nil]
    unfold digitsVal
    rw [foldl_digits_map (Nat.digits 10 n)
      (fun d hd => Nat.digits_lt_base (by norm_num) hd) 0, Nat.ofDigits_digits]
    simp

theorem numChars_ne_nil (n : Nat) : numChars n ≠ [] := by
  rcases Nat.eq_zero_or_pos n with rfl | hn
  · decide
  · unfold numChars Nat.toDigits
    rw [toDigitsCore_eq (n + 1) n [] hn (Nat.lt_succ_self n), List.append_nil]
    simp [Nat.digits_ne_nil_iff_ne_zero.mpr (Nat.pos_iff_ne_zero.mp hn)]

theorem numChars_all_digits (n : Nat) : (numChars n).all isDigit10 = true := by
  rcases Nat.eq_zero_or_pos n with rfl | hn
  · decide
  · unfold numChars Nat.toDigits
    rw [toDigitsCore_eq (n + 1) n [] hn (Nat.lt_succ_self n), List.append_nil]
    rw [List.all_eq_true]
    intro c hc
    obtain ⟨d, hd, rfl⟩ := List.mem_map.mp hc
    exact digitChar_isDigit10 (Nat.digits_lt_base (by norm_num) (List.mem_reverse.mp hd))

theorem wfToken_numChars (n : Nat) {u : Char}
    (hu : u = 'd' ∨ u = 'h' ∨ u = 'm' ∨ u = 's') : wfToken ⟨numChars n, u⟩ :=
  ⟨numChars_ne_nil n, numChars_all_digits n, hu⟩

/-- `string_from_duration` agrees with the specification's formulas
(`days = d/86400`, `hours = (d/3600) mod 24`, ...). -/
theorem string_from_duration_eq_formatSpec (d : Nat) :
    string_from_duration d = formatSpec d := by
  have h1 : d / 60 / 60 = d / 3600 := by rw [Nat.div_div_eq_div_mul]
  have h2 : d / 3600 / 24 = d / 86400 := by rw [Nat.div_div_eq_div_mul]
  simp only [string_from_duration, formatSpec, h1, h2]

/-- Round trip: parsing the canonical rendering of any `u64` duration gives
that duration back. -/
theorem parse_format (d : Nat) (hd : d < U64) :
    duration_from_string (string_from_duration d) = .ok d := by
  by_cases hdays : d / 60 / 60 / 24 > 0
  · have hflat : string_from_duration d =
        (([⟨numChars (d / 60 / 60 / 24), 'd'⟩, ⟨numChars (d / 60 / 60 % 24), 'h'⟩,
           ⟨numChars (d / 60 % 60), 'm'⟩, ⟨numChars (d % 60), 's'⟩] : List Token).map
             renderToken).flatten := by
      simp [string_from_duration, hdays, renderToken]
    have hwf : ∀ t ∈ ([⟨numChars (d / 60 / 60 / 24), 'd'⟩, ⟨numChars (d / 60 / 60 % 24), 'h'⟩,
        ⟨numChars (d / 60 % 60), 'm'⟩, ⟨numChars (d % 60), 's'⟩] : List Token), wfToken t := by
      intro t ht
      simp only [List.mem_cons, List.mem_singleton, List.not_mem_nil, or_false] at ht
      rcases ht with rfl | rfl | rfl | rfl
      · exact wfToken_numChars _ (Or.inl rfl)
      · exact wfToken_numChars _ (Or.inr (Or.inl rfl))
      · exact wfToken_numChars _ (Or.inr (Or.inr (Or.inl rfl)))
      · exact wfToken_numChars _ (Or.inr (Or.inr (Or.inr rfl)))
    have hval : tokensVal ([⟨numChars (d / 60 / 60 / 24), 'd'⟩, ⟨numChars (d / 60 / 60 % 24), 'h'⟩,
        ⟨numChars (d / 60 % 60), 'm'⟩, ⟨numChars (d % 60), 's'⟩] : List Token) = d := by
      simp [tokensVal, tokVal, unitSecs, digitsVal_numChars]
      omega
    rw [hflat, duration_from_string_tokens _ hwf (by rw [hval]; exact hd), hval]
  · by_cases hhrs : d / 60 / 60 % 24 > 0
    · have hflat : string_from_duration d =
          (([⟨numChars (d / 60 / 60 % 24), 'h'⟩, ⟨numChars (d / 60 % 60), 'm'⟩,
             ⟨numChars (d % 60), 's'⟩] : List Token).map renderToken).flatten := by
        simp [string_from_duration, hdays, hhrs, renderToken]
      have hwf : ∀ t ∈ ([⟨numChars (d / 60 / 60 % 24), 'h'⟩, ⟨numChars (d / 60 % 60), 'm'⟩,
          ⟨numChars (d % 60), 's'⟩] : List Token), wfToken t := by
        intro t ht
        simp only [List.mem_cons, List.mem_singleton, List.not_mem_nil, or_false] at ht
        rcases ht with rfl | rfl | rfl
        · exact wfToken_numChars _ (Or.inr (Or.inl rfl))
        · exact wfToken_numChars _ (Or.inr (Or.inr (Or.inl rfl)))
        · exact wfToken_numChars _ (Or.inr (Or.inr (Or.inr rfl)))
      have hval : tokensVal ([⟨numChars (d / 60 / 60 % 24), 'h'⟩, ⟨numChars (d / 60 % 60), 'm'⟩,
          ⟨numChars (d % 60), 's'⟩] : List Token) = d := by
        simp [tokensVal, tokVal, unitSecs, digitsVal_numChars]
        omega
      rw [hflat, duration_from_string_tokens _ hwf (by rw [hval]; exact hd), hval]
    · by_cases hmin : d / 60 % 60 > 0
      · have hflat : string_from_duration d =
            (([⟨numChars (d / 60 % 60), 'm'⟩, ⟨numChars (d % 60), 's'⟩] : List Token).map
               renderToken).flatten := by
          simp [string_from_duration, hdays, hhrs, hmin, renderToken]
        have hwf : ∀ t ∈ ([⟨numChars (d / 60 % 60), 'm'⟩,
            ⟨numChars (d % 60), 's'⟩] : List Token), wfToken t := by
          intro t ht
          simp only [List.mem_cons, List.mem_singleton, List.not_mem_nil, or_false] at ht
          rcases ht with rfl | rfl
          · exact wfToken_numChars _ (Or.inr (Or.inr (Or.inl rfl)))
          · exact wfToken_numChars _ (Or.inr (Or.inr (Or.inr rfl)))
        have hval : tokensVal ([⟨numChars (d / 60 % 60), 'm'⟩,
            ⟨numChars (d % 60), 's'⟩] : List Token) = d := by
          simp [tokensVal, tokVal, unitSecs, digitsVal_numChars]
          omega
        rw [hflat, duration_from_string_tokens _ hwf (by rw [hval]; exact hd), hval]
      · have hflat : string_from_duration d =
            (([⟨numChars (d % 60), 's'⟩] : List Token).map renderToken).flatten := by
          simp [string_from_duration, hdays, hhrs, hmin, renderToken]
        have hwf : ∀ t ∈ ([⟨numChars (d % 60), 's'⟩] : List Token), wfToken t := by
          intro t ht
          simp only [List.mem_singleton] at ht
          subst ht
          exact wfToken_numChars _ (Or.inr (Or.inr (Or.inr rfl)))
        have hval : tokensVal ([⟨numChars (d % 60), 's'⟩] : List Token) = d := by
          simp [tokensVal, tokVal, unitSecs, digitsVal_numChars]
          omega
        rw [hflat, duration_from_string_tokens _ hwf (by rw [hval]; exact hd), hval]

/-!  Lemmas about the render/input loop.  -/

theorem splitNl_ne_nil (s : List Char) : splitNl s ≠ [] := by
  cases s with
  | nil => simp [splitNl]
  | cons c cs =>
    simp only [splitNl]
    split
    · simp
    · split <;> simp

theorem processKeys_quit_iff (keys : List KeyEvent) (p : Bool) :
    processKeys keys p = .quit ↔
      ∃ pre q rest, keys = pre ++ .ok q :: rest ∧ (q = Key.ctrlC ∨ q = Key.esc) ∧
        ∀ x ∈ pre, x = .ok Key.space ∨ x = .ok Key.other := by
  induction keys generalizing p with
  | nil =>
    constructor
    · intro h; exact KeysOut.noConfusion h
    · rintro ⟨pre, q, rest, hk, -, -⟩
      cases pre <;> simp at hk
  | cons e keys ih =>
    cases e with
    | error u =>
      constructor
      · intro h; exact KeysOut.noConfusion h
      · rintro ⟨pre, q, rest, hk, hq, hpre⟩
        cases pre with
        | nil => simp at hk
        | cons x pre' =>
          rw [List.cons_append] at hk
          have hx : x = Except.error u := (List.cons.inj hk).1.symm
          rcases hpre x (by simp) with h | h <;> rw [hx] at h <;> exact Except.noConfusion h
    | ok k =>
      cases k with
      | ctrlC =>
        constructor
        · intro _
          exact ⟨[], Key.ctrlC, keys, rfl, Or.inl rfl, by simp⟩
        · intro _
          simp [processKeys]
      | esc =>
        constructor
        · intro _
          exact ⟨[], Key.esc, keys, rfl, Or.inr rfl, by simp⟩
        · intro _
          simp [processKeys]
      | space =>
        have hred : processKeys (Except.ok Key.space :: keys) p = processKeys keys (!p) := by
          simp [processKeys]
        rw [hred, ih (!p)]
        constructor
        · rintro ⟨pre, q, rest, rfl, hq, hpre⟩
          refine ⟨.ok Key.space :: pre, q, rest, rfl, hq, ?_⟩
          intro x hx
          rcases List.mem_cons.mp hx with rfl | hmem
          · exact Or.inl rfl
          · exact hpre x hmem
        · rintro ⟨pre, q, rest, hk, hq, hpre⟩
          cases pre with
          | nil =>
            have := (List.cons.inj hk).1
            rcases hq with rfl | rfl <;> exact absurd this.symm (by simp)
          | cons x pre' =>
            rw [List.cons_append] at hk
            obtain ⟨-, hk₂⟩ := List.cons.inj hk
            exact ⟨pre', q, rest, hk₂, hq, fun x hx => hpre x (List.mem_cons_of_mem _ hx)⟩
      | other =>
        have hred : processKeys (Except.ok Key.other :: keys) p = processKeys keys p := by
          simp [processKeys]
        rw [hred, ih p]
        constructor
        · rintro ⟨pre, q, rest, rfl, hq, hpre⟩
          refine ⟨.ok Key.other :: pre, q, rest, rfl, hq, ?_⟩
          intro x hx
          rcases List.mem_cons.mp hx with rfl | hmem
          · exact Or.inr rfl
          · exact hpre x hmem
        · rintro ⟨pre, q, rest, hk, hq, hpre⟩
          cases pre with
          | nil =>
            have := (List.cons.inj hk).1
            rcases hq with rfl | rfl <;> exact absurd this.symm (by simp)
          | cons x pre' =>
            rw [List.cons_append] at hk
            obtain ⟨-, hk₂⟩ := List.cons.inj hk
            exact ⟨pre', q, rest, hk₂, hq, fun x hx => hpre x (List.mem_cons_of_mem _ hx)⟩

/-- Draining a batch of space/other keys continues, with `paused` equal to the
fold of the toggles over the batch. -/
theorem processKeys_cont_fold {keys : List KeyEvent}
    (hb : ∀ x ∈ keys, x = .ok Key.space ∨ x = .ok Key.other) (p : Bool) :
    processKeys keys p =
      .cont (keys.foldl (fun b x => if x = .ok Key.space then !b else b) p) := by
  induction keys generalizing p with
  | nil => rfl
  | cons e keys ih =>
    rcases hb e (by simp) with rfl | rfl
    · have h1 : processKeys (Except.ok Key.space :: keys) p = processKeys keys (!p) := by
        simp [processKeys]
      have h2 : (if (Except.ok Key.space : KeyEvent) = .ok Key.space then !p else p) = !p := by
        simp
      rw [h1, ih (fun x hx => hb x (List.mem_cons_of_mem _ hx)) (!p), List.foldl_cons, h2]
    · have h1 : processKeys (Except.ok Key.other :: keys) p = processKeys keys p := by
        simp [processKeys]
      have h2 : (if (Except.ok Key.other : KeyEvent) = .ok Key.space then !p else p) = p := by
        simp
      rw [h1, ih (fun x hx => hb x (List.mem_cons_of_mem _ hx)) p, List.foldl_cons, h2]

theorem processKeys_cont_of_no_space {keys : List KeyEvent} {p p₁ : Bool}
    (hn : ∀ x ∈ keys, x ≠ .ok Key.space) (h : processKeys keys p = .cont p₁) : p₁ = p := by
  induction keys generalizing p with
  | nil =>
    simp only [processKeys] at h
    exact (KeysOut.cont.inj h).symm
  | cons e keys ih =>
    cases e with
    | error u => exact KeysOut.noConfusion h
    | ok k =>
      cases k with
      | ctrlC => exact KeysOut.noConfusion h
      | esc => exact KeysOut.noConfusion h
      | space => exact absurd rfl (hn (.ok Key.space) (by simp))
      | other =>
        have hred : processKeys (Except.ok Key.other :: keys) p = processKeys keys p := by
          simp [processKeys]
        rw [hred] at h
        exact ih (fun x hx => hn x (List.mem_cons_of_mem _ hx)) h

/-- A key event that fails to decode, reached after only space/other events,
panics the drain (`key.unwrap()` on an `Err`). -/
theorem processKeys_fault_of {pre rest : List KeyEvent} {e : Unit}
    (hpre : ∀ x ∈ pre, x = .ok Key.space ∨ x = .ok Key.other) (p : Bool) :
    processKeys (pre ++ .error e :: rest) p = .fault := by
  induction pre generalizing p with
  | nil => rfl
  | cons x pre' ih =>
    rcases hpre x (by simp) with rfl | rfl
    · simp only [List.cons_append, processKeys]
      exact ih (fun x hx => hpre x (List.mem_cons_of_mem _ hx)) (!p)
    · simp only [List.cons_append, processKeys]
      exact ih (fun x hx => hpre x (List.mem_cons_of_mem _ hx)) p

/-- The loop returns `true` in a frame exactly when the updated elapsed time
strictly exceeds the countdown (`countdown >= elapsed` keeps running, so exact
equality still counts as time remaining). -/
theorem stepFrame_finished_true_iff (c : Nat) (banner : List Char → List Char)
    (st : LoopState) (f : Frame) :
    (stepFrame c banner st f).1 = .finished true ↔ c < newElapsed st f := by
  simp only [stepFrame]
  split
  · rename_i he
    split
    · split <;> simp <;> omega
    · simp
      omega
  · rename_i he
    simp
    omega

/-- The loop returns `false` in a frame exactly when time remains, the frame
rendered without fault, and the drained key events quit. -/
theorem stepFrame_finished_false_iff (c : Nat) (banner : List Char → List Char)
    (st : LoopState) (f : Frame) :
    (stepFrame c banner st f).1 = .finished false ↔
      newElapsed st f ≤ c ∧
      (renderFrame f.width f.height st.paused
        (banner (string_from_duration (c - newElapsed st f)))).2 = true ∧
      processKeys f.keys st.paused = .quit := by
  simp only [stepFrame]
  split
  · rename_i he
    split
    · rename_i hr
      cases hk : processKeys f.keys st.paused <;> simp_all
    · rename_i hr
      simp_all
  · rename_i he
    simp_all

/-- Inversion for a frame that continues the loop: the new state has the
updated elapsed time, the previous-frame instant reset to this frame's `now`
(unconditionally, paused or not), and the paused flag produced by the key
drain. -/
theorem stepFrame_next {c : Nat} {banner : List Char → List Char}
    {st st₁ : LoopState} {f : Frame} (h : (stepFrame c banner st f).1 = .next st₁) :
    st₁.elapsed = newElapsed st f ∧ st₁.dt = f.now ∧
      processKeys f.keys st.paused = .cont st₁.paused := by
  simp only [stepFrame] at h
  split at h
  · split at h
    · rename_i hr
      cases hk : processKeys f.keys st.paused with
      | quit => rw [hk] at h; dsimp only at h; exact StepRes.noConfusion h
      | fault => rw [hk] at h; dsimp only at h; exact StepRes.noConfusion h
      | cont p =>
        rw [hk] at h
        dsimp only at h
        cases h
        exact ⟨rfl, rfl, by simp only [hk]⟩
    · dsimp only at h
      exact StepRes.noConfusion h
  · dsimp only at h
    exact StepRes.noConfusion h

theorem runLoopAux_cons (c : Nat) (banner : List Char → List Char)
    (st : LoopState) (f : Frame) (fs : List Frame) :
    runLoopAux c banner st (f :: fs) =
      match stepFrame c banner st f with
      | (.finished b, ops) => (.finished b, ops)
      | (.fault, ops) => (.fault, ops)
      | (.next st₁, ops) =>
        let r := runLoopAux c banner st₁ fs
        (r.1, ops ++ r.2) := rfl

/-- The loop run returns `b` exactly when some frame is reached (all earlier
frames continuing) whose step finishes with `b`. -/
theorem runLoopAux_finished_iff (c : Nat) (banner : List Char → List Char)
    (st : LoopState) (frames : List Frame) (b : Bool) :
    (runLoopAux c banner st frames).1 = .finished b ↔
      ∃ pre f post st₁, frames = pre ++ f :: post ∧
        (runLoopAux c banner st pre).1 = .more st₁ ∧
        (stepFrame c banner st₁ f).1 = .finished b := by
  induction frames generalizing st with
  | nil =>
    constructor
    · intro h; exact RunRes.noConfusion h
    · rintro ⟨pre, f, post, st₁, hk, -, -⟩
      cases pre <;> simp at hk
  | cons f₀ fs ih =>
    rw [runLoopAux_cons]
    cases hstep : stepFrame c banner st f₀ with
    | mk res ops =>
      cases res with
      | finished b₀ =>
        dsimp only
        constructor
        · intro h
          refine ⟨[], f₀, fs, st, rfl, rfl, ?_⟩
          rw [hstep]
          exact congrArg _ (RunRes.finished.inj h)
        · rintro ⟨pre, f, post, st₁, hfr, hpre, hf⟩
          cases pre with
          | nil =>
            obtain ⟨rfl, rfl⟩ := List.cons.inj hfr
            have h₁ : st = st₁ := RunRes.more.inj hpre
            subst h₁
            rw [hstep] at hf
            exact congrArg _ (StepRes.finished.inj hf)
          | cons p pre' =>
            obtain ⟨rfl, rfl⟩ := List.cons.inj hfr
            rw [runLoopAux_cons, hstep] at hpre
            dsimp only at hpre
            exact absurd hpre (by simp)
      | fault =>
        dsimp only
        constructor
        · intro h; exact RunRes.noConfusion h
        · rintro ⟨pre, f, post, st₁, hfr, hpre, hf⟩
          cases pre with
          | nil =>
            obtain ⟨rfl, rfl⟩ := List.cons.inj hfr
            have h₁ : st = st₁ := RunRes.more.inj hpre
            subst h₁
            rw [hstep] at hf
            exact absurd hf (by simp)
          | cons p pre' =>
            obtain ⟨rfl, rfl⟩ := List.cons.inj hfr
            rw [runLoopAux_cons, hstep] at hpre
            dsimp only at hpre
            exact absurd hpre (by simp)
      | next st' =>
        dsimp only
        rw [ih st']
        constructor
        · rintro ⟨pre, f, post, st₁, rfl, hpre, hf⟩
          refine ⟨f₀ :: pre, f, post, st₁, rfl, ?_, hf⟩
          rw [runLoopAux_cons, hstep]
          dsimp only
          exact hpre
        · rintro ⟨pre, f, post, st₁, hfr, hpre, hf⟩
          cases pre with
          | nil =>
            obtain ⟨rfl, rfl⟩ := List.cons.inj hfr
            have h₁ : st = st₁ := RunRes.more.inj hpre
            subst h₁
            rw [hstep] at hf
            exact absurd hf (by simp)
          | cons p pre' =>
            obtain ⟨rfl, rfl⟩ := List.cons.inj hfr
            rw [runLoopAux_cons, hstep] at hpre
            dsimp only at hpre
            exact ⟨pre', f, post, st₁, rfl, hpre, hf⟩

/-- While paused, running any number of frames (whose key events contain no
toggle) leaves `elapsed` unchanged and keeps the loop paused. -/
theorem runLoopAux_paused {c : Nat} {banner : List Char → List Char}
    {st st₁ : LoopState} {frames : List Frame} (hp : st.paused = true)
    (hkeys : ∀ f ∈ frames, ∀ x ∈ f.keys, x ≠ .ok Key.space)
    (h : (runLoopAux c banner st frames).1 = .more st₁) :
    st₁.elapsed = st.elapsed ∧ st₁.paused = true := by
  induction frames generalizing st with
  | nil =>
    have h₁ : st = st₁ := RunRes.more.inj h
    subst h₁
    exact ⟨rfl, hp⟩
  | cons f fs ih =>
    rw [runLoopAux_cons] at h
    cases hstep : stepFrame c banner st f with
    | mk res ops =>
      rw [hstep] at h
      cases res with
      | finished b => dsimp only at h; exact absurd h (by simp)
      | fault => dsimp only at h; exact absurd h (by simp)
      | next st' =>
        dsimp only at h
        have hs1 : (stepFrame c banner st f).1 = .next st' := by rw [hstep]
        obtain ⟨he, hdt, hk⟩ := stepFrame_next hs1
        have hpp : st'.paused = true :=
          (processKeys_cont_of_no_space (hkeys f (by simp)) hk).trans hp
        have hee : st'.elapsed = st.elapsed := by
          rw [he]
          simp [newElapsed, hp]
        have hrec := ih hpp (fun f' hf' => hkeys f' (List.mem_cons_of_mem _ hf')) h
        exact ⟨hrec.1.trans hee, hrec.2⟩

/-- Unpausing accumulates only the time after the toggle frame: a paused
state, a frame carrying the space toggle, then a further frame, yields exactly
the wall-clock span between those two frames — the paused span before the
toggle (back to `st.dt`) is never added. -/
theorem stepFrame_unpause_no_retro {c : Nat} {banner : List Char → List Char}
    {st st₁ st₂ : LoopState} {f₁ f₂ : Frame} (hp : st.paused = true)
    (hk₁ : f₁.keys = [.ok Key.space])
    (h₁ : (stepFrame c banner st f₁).1 = .next st₁)
    (h₂ : (stepFrame c banner st₁ f₂).1 = .next st₂) :
    st₁.elapsed = st.elapsed ∧ st₁.paused = false ∧
      st₂.elapsed = st.elapsed + (f₂.now - f₁.now) := by
  obtain ⟨he₁, hdt₁, hcont₁⟩ := stepFrame_next h₁
  rw [hk₁, hp] at hcont₁
  have hcont₁' : processKeys [Except.ok Key.space] true = .cont false := rfl
  have hp₁ : st₁.paused = false := by
    have := hcont₁.symm.trans hcont₁'
    exact KeysOut.cont.inj this
  have he₁' : st₁.elapsed = st.elapsed := by
    rw [he₁]
    simp [newElapsed, hp]
  obtain ⟨he₂, hdt₂, hcont₂⟩ := stepFrame_next h₂
  refine ⟨he₁', hp₁, ?_⟩
  rw [he₂]
  simp [newElapsed, hp₁, he₁', hdt₁]

/-- Whenever the loop's scope exits — a `finished` return or a panic — the
trace ends with the `ConsoleReset` restoration writes. -/
theorem runOps_guard {c : Nat} {banner : List Char → List Char} {t₀ : Nat}
    {frames : List Frame} (h : scopeExits (runOps c banner t₀ frames).1 = true) :
    ∃ pre, (runOps c banner t₀ frames).2 = pre ++ consoleResetOps := by
  simp only [runOps] at h ⊢
  cases hr : (runLoopAux c banner ⟨0, false, t₀⟩ frames).1 with
  | finished b => exact ⟨_, rfl⟩
  | fault => exact ⟨_, rfl⟩
  | more st =>
    rw [hr] at h
    simp [scopeExits] at h

theorem gotoCoords_underflow {w h width nLines i : Nat}
    (hw : w / 2 < width % U16 / 2) : gotoCoords w h width nLines i = .error () := by
  unfold gotoCoords csub16
  rw [if_neg (by omega)]

theorem gotoCoords_ok {w h width nLines i : Nat}
    (h₁ : width % U16 / 2 ≤ w / 2) (h₂ : nLines % U16 / 2 ≤ h / 2)
    (h₃ : h / 2 - nLines % U16 / 2 + i % U16 < U16) :
    gotoCoords w h width nLines i =
      .ok (w / 2 - width % U16 / 2, h / 2 - nLines % U16 / 2 + i % U16) := by
  unfold gotoCoords csub16 cadd16
  rw [if_pos h₁]
  dsimp only
  rw [if_pos h₂]
  dsimp only
  rw [if_pos h₃]

/-- If the text is wider than the terminal (in the truncated-halves sense the
source computes), the frame render panics: the u16 subtraction for the
centering column underflows and the whole step faults. -/
theorem stepFrame_underflow {c : Nat} {banner : List Char → List Char}
    {st : LoopState} {f : Frame} (he : newElapsed st f ≤ c)
    (hw : f.width / 2 <
      lineWidth (splitNl (banner (string_from_duration (c - newElapsed st f)))) % U16 / 2) :
    (stepFrame c banner st f).1 = .fault := by
  have hr : (renderFrame f.width f.height st.paused
      (banner (string_from_duration (c - newElapsed st f)))).2 = false := by
    unfold renderFrame
    cases hl : splitNl (banner (string_from_duration (c - newElapsed st f))) with
    | nil => exact absurd hl (splitNl_ne_nil _)
    | cons l ls =>
      rw [hl] at hw
      simp only [renderLines, gotoCoords_underflow hw]
  simp only [stepFrame]
  rw [if_pos he, hr]
  simp

/-- A key event that fails to decode (after only space/other events in the
frame's buffer) panics the whole step. -/
theorem stepFrame_fault_of_bad_key {c : Nat} {banner : List Char → List Char}
    {st : LoopState} {f : Frame} {pre rest : List KeyEvent} {e : Unit}
    (he : newElapsed st f ≤ c)
    (hr : (renderFrame f.width f.height st.paused
      (banner (string_from_duration (c - newElapsed st f)))).2 = true)
    (hk : f.keys = pre ++ .error e :: rest)
    (hpre : ∀ x ∈ pre, x = .ok Key.space ∨ x = .ok Key.other) :
    (stepFrame c banner st f).1 = .fault := by
  simp only [stepFrame]
  rw [if_pos he, hr]
  simp only [if_pos]
  rw [hk, processKeys_fault_of hpre]

/-!  Claim theorems.  -/

/-- C1 (amended): for every input whose space-stripped form is a
concatenation of well-formed tokens (non-empty digit run + unit letter) and
whose total `digits x unit_seconds` sum fits in `u64`, `duration_from_string`
returns that sum; units may repeat and appear in any order, and the empty
string parses to zero. (The amendment adds the u64 bound: a well-formed token
whose value reaches `2 ^ 64` makes the parse panic instead — see the
counterexample.) -/
theorem C1_parse_wellformed_sum :
    (∀ (ts : List Token) (s : List Char), (∀ t ∈ ts, wfToken t) →
      s.filter (fun c => !(c == ' ')) = (ts.map renderToken).flatten →
      tokensVal ts < U64 →
      duration_from_string s = .ok (tokensVal ts)) ∧
    duration_from_string [] = .ok 0 := by
  constructor
  · intro ts s hwf hs hfit
    rw [duration_from_string_filter_space, hs]
    exact duration_from_string_tokens ts hwf hfit
  · rfl

/-- C1 counterexample: the input `"18446744073709551616s"` (a well-formed
token denoting `2 ^ 64` seconds) does not parse to its digits-times-unit sum;
`u64::from_str_radix` overflows and the `unwrap` panics. -/
theorem C1_counterexample :
    wfToken ⟨"18446744073709551616".toList, 's'⟩ ∧
    duration_from_string (renderToken ⟨"18446744073709551616".toList, 's'⟩) =
      .error .overflow := by
  constructor
  · refine ⟨by decide, by decide, by decide⟩
  · rfl

/-- C1 witness: `"1h 1h 1h"` is three well-formed `h` tokens with spaces
ignored, and parses to 10800 seconds. -/
theorem C1_witness : duration_from_string ("1h 1h 1h".toList) = .ok 10800 := by
  have h := C1_parse_wellformed_sum.1
    [⟨['1'], 'h'⟩, ⟨['1'], 'h'⟩, ⟨['1'], 'h'⟩] ("1h 1h 1h".toList)
    (by decide) (by decide) (by decide)
  exact h

/-- C2: `string_from_duration` computes `days = d/86400`,
`hours = (d/3600) mod 24`, `minutes = (d/60) mod 60`, `seconds = d mod 60`
and prints from the largest non-zero unit downward with all lower tiers
present and no separators; in particular the four specified examples hold. -/
theorem C2_format_fields_and_branches :
    (∀ d : Nat, string_from_duration d = formatSpec d) ∧
    string_from_duration 0 = "0s".toList ∧
    string_from_duration 90 = "1m30s".toList ∧
    string_from_duration 3661 = "1h1m1s".toList ∧
    string_from_duration 90061 = "1d1h1m1s".toList :=
  ⟨string_from_duration_eq_formatSpec, rfl, rfl, rfl, rfl⟩

/-- C3: the loop returns `true` in a frame exactly when the updated elapsed
time strictly exceeds the countdown (equality still counts as remaining);
it returns `false` in a frame exactly when time remains, the frame rendered,
and the drained events reach a `Ctrl-C` or `Esc` key preceded only by
space/other keys; a batch of space/other keys continues with `paused` equal
to the fold of the space toggles; and a whole run returns `b` exactly when
some frame is reached, all earlier frames continuing, whose step finishes
with `b`. -/
theorem C3_run_outcomes :
    (∀ (c : Nat) (banner : List Char → List Char) (st : LoopState) (f : Frame),
      (stepFrame c banner st f).1 = .finished true ↔ c < newElapsed st f) ∧
    (∀ (c : Nat) (banner : List Char → List Char) (st : LoopState) (f : Frame),
      (stepFrame c banner st f).1 = .finished false ↔
        newElapsed st f ≤ c ∧
        (renderFrame f.width f.height st.paused
          (banner (string_from_duration (c - newElapsed st f)))).2 = true ∧
        processKeys f.keys st.paused = .quit) ∧
    (∀ (keys : List KeyEvent) (p : Bool),
      processKeys keys p = .quit ↔
        ∃ pre q rest, keys = pre ++ .ok q :: rest ∧ (q = Key.ctrlC ∨ q = Key.esc) ∧
          ∀ x ∈ pre, x = .ok Key.space ∨ x = .ok Key.other) ∧
    (∀ (keys : List KeyEvent) (p : Bool),
      (∀ x ∈ keys, x = .ok Key.space ∨ x = .ok Key.other) →
      processKeys keys p =
        .cont (keys.foldl (fun b x => if x = .ok Key.space then !b else b) p)) ∧
    (∀ (c : Nat) (banner : List Char → List Char) (st : LoopState)
      (frames : List Frame) (b : Bool),
      (runLoopAux c banner st frames).1 = .finished b ↔
        ∃ pre f post st₁, frames = pre ++ f :: post ∧
          (runLoopAux c banner st pre).1 = .more st₁ ∧
          (stepFrame c banner st₁ f).1 = .finished b) :=
  ⟨stepFrame_finished_true_iff, stepFrame_finished_false_iff, processKeys_quit_iff,
    fun keys p hb => processKeys_cont_fold hb p, runLoopAux_finished_iff⟩

/-- C3 witness: with countdown 5, a frame at instant 6 finishes `true`
(elapsed 6 exceeds 5); a frame at instant 3 carrying `Ctrl-C` finishes
`false`; a space toggle in a batch flips `paused`. -/
theorem C3_witness :
    (stepFrame 5 (fun x => x) ⟨0, false, 0⟩ ⟨6, 80, 24, []⟩).1 = .finished true ∧
    (stepFrame 5 (fun x => x) ⟨0, false, 0⟩ ⟨3, 80, 24, [.ok Key.ctrlC]⟩).1 = .finished false ∧
    processKeys [.ok Key.space, .ok Key.other] true = .cont false := by
  refine ⟨?_, ?_, ?_⟩
  · exact (C3_run_outcomes.1 5 (fun x => x) ⟨0, false, 0⟩ ⟨6, 80, 24, []⟩).mpr (by decide)
  · exact (C3_run_outcomes.2.1 5 (fun x => x) ⟨0, false, 0⟩
      ⟨3, 80, 24, [.ok Key.ctrlC]⟩).mpr ⟨by decide, by decide, by decide⟩
  · exact C3_run_outcomes.2.2.2.1 [.ok Key.space, .ok Key.other] true (by decide)

/-- C4 (amended): `duration_from_string` errors on any input containing a
character that is not a digit, unit letter or space, and on a unit letter
whose preceding digit run is empty; but a trailing digit run with no
following unit letter is silently discarded — appending trailing digits to
any accepted input leaves the parsed value unchanged, rather than being
rejected as the claim states. -/
theorem C4_parse_errors :
    (∀ (s : List Char) (c : Char), c ∈ s → badChar c →
      ∃ e, duration_from_string s = .error e) ∧
    (∀ (sp : List Char), sp.all (fun c => c == ' ') = true →
      ∀ (u : Char), (u = 'd' ∨ u = 'h' ∨ u = 'm' ∨ u = 's') → ∀ (s : List Char),
      duration_from_string (sp ++ u :: s) = .error .emptyNum) ∧
    (∀ (s ds : List Char) (v : Nat), ds.all isDigit10 = true →
      duration_from_string s = .ok v → duration_from_string (s ++ ds) = .ok v) := by
  refine ⟨?_, ?_, ?_⟩
  · intro s c hc hb
    unfold duration_from_string
    obtain ⟨e, he⟩ := dfsLoop_badChar ⟨c, hc, hb⟩ ([], 0)
    rw [he]
    exact ⟨e, rfl⟩
  · intro sp hsp u hu s
    exact duration_from_string_empty_run hsp hu s
  · intro s ds v hds h
    exact duration_from_string_append_digits hds h

/-- C4 counterexample: `"5"` — a trailing digit run with no unit — is not
rejected: it parses successfully to 0 seconds, the digits silently
discarded. (For contrast, `"1x"` and a stray `"h"` do fail.) -/
theorem C4_counterexample :
    duration_from_string ("5".toList) = .ok 0 ∧
    duration_from_string ("1x".toList) = .error (.unexpected 'x') ∧
    duration_from_string ("h".toList) = .error .emptyNum :=
  ⟨rfl, rfl, rfl⟩

/-- C4 witness: the error cases at concrete inputs, plus discarded trailing
digits appended to the empty string. -/
theorem C4_witness :
    (∃ e, duration_from_string ("1x".toList) = .error e) ∧
    duration_from_string (" ".toList ++ 'h' :: []) = .error .emptyNum ∧
    duration_from_string ("".toList ++ "5".toList) = .ok 0 := by
  refine ⟨?_, ?_, ?_⟩
  · exact C4_parse_errors.1 ("1x".toList) 'x' (by decide) (by decide)
  · exact C4_parse_errors.2.1 (" ".toList) (by decide) 'h' (Or.inr (Or.inl rfl)) []
  · exact C4_parse_errors.2.2 ("".toList) ("5".toList) 0 (by decide) rfl

/-- C5: for every `u64` duration `d`, `parse (format d) = d`; consequently
for every string accepted by the parser, formatting the parsed value and
re-parsing reproduces exactly that value (the canonical form denotes the same
total duration, even when the original input was non-canonical). -/
theorem C5_roundtrip :
    (∀ d : Nat, d < U64 → duration_from_string (string_from_duration d) = .ok d) ∧
    (∀ (s : List Char) (v : Nat), duration_from_string s = .ok v →
      duration_from_string (string_from_duration v) = .ok v) := by
  refine ⟨parse_format, ?_⟩
  intro s v h
  exact parse_format v (duration_from_string_lt h)

/-- C5 witness: the round trip at 90061 seconds and through the
non-canonical input `"25m100s"` (1600 seconds). -/
theorem C5_witness :
    duration_from_string (string_from_duration 90061) = .ok 90061 ∧
    duration_from_string (string_from_duration 1600) = .ok 1600 := by
  constructor
  · exact C5_roundtrip.1 90061 (by decide)
  · exact C5_roundtrip.2 ("25m100s".toList) 1600 rfl

/-- C6: while paused, any number of frames (with no toggle key) leaves
`elapsed` unchanged; whenever a frame continues, the previous-frame instant
is reset to that frame's `now` unconditionally — paused or not — and
`elapsed` never decreases (and is exactly unchanged when paused); and
unpausing resumes from the pause point: after a paused state, a toggle frame
at `now₁` and a following frame at `now₂` accumulate exactly `now₂ - now₁`,
never the time spent paused. -/
theorem C6_pause_semantics :
    (∀ (c : Nat) (banner : List Char → List Char) (st st₁ : LoopState)
      (frames : List Frame),
      st.paused = true → (∀ f ∈ frames, ∀ x ∈ f.keys, x ≠ .ok Key.space) →
      (runLoopAux c banner st frames).1 = .more st₁ →
      st₁.elapsed = st.elapsed ∧ st₁.paused = true) ∧
    (∀ (c : Nat) (banner : List Char → List Char) (st st₁ : LoopState) (f : Frame),
      (stepFrame c banner st f).1 = .next st₁ →
      st₁.dt = f.now ∧ st.elapsed ≤ st₁.elapsed ∧
        (st.paused = true → st₁.elapsed = st.elapsed)) ∧
    (∀ (c : Nat) (banner : List Char → List Char) (st st₁ st₂ : LoopState)
      (f₁ f₂ : Frame),
      st.paused = true → f₁.keys = [.ok Key.space] →
      (stepFrame c banner st f₁).1 = .next st₁ →
      (stepFrame c banner st₁ f₂).1 = .next st₂ →
      st₁.elapsed = st.elapsed ∧ st₁.paused = false ∧
        st₂.elapsed = st.elapsed + (f₂.now - f₁.now)) := by
  refine ⟨fun c banner st st₁ frames hp hk h => runLoopAux_paused hp hk h, ?_, ?_⟩
  · intro c banner st st₁ f h
    obtain ⟨he, hdt, -⟩ := stepFrame_next h
    refine ⟨hdt, ?_, ?_⟩
    · rw [he]
      unfold newElapsed
      split <;> omega
    · intro hp
      rw [he]
      simp [newElapsed, hp]
  · intro c banner st st₁ st₂ f₁ f₂ hp hk h₁ h₂
    exact stepFrame_unpause_no_retro hp hk h₁ h₂

/-- C6 witness: a paused state at elapsed 3 is unchanged over two frames;
and the unpause scenario at concrete instants accumulates exactly the span
after the toggle frame. -/
theorem C6_witness :
    ((⟨3, true, 9⟩ : LoopState).elapsed = (⟨3, true, 0⟩ : LoopState).elapsed ∧
      (⟨3, true, 9⟩ : LoopState).paused = true) ∧
    ((⟨0, false, 4⟩ : LoopState).elapsed = (⟨0, true, 0⟩ : LoopState).elapsed ∧
      (⟨0, false, 4⟩ : LoopState).paused = false ∧
      (⟨6, false, 10⟩ : LoopState).elapsed =
        (⟨0, true, 0⟩ : LoopState).elapsed + (10 - 4)) := by
  constructor
  · exact C6_pause_semantics.1 100 (fun x => x) ⟨3, true, 0⟩ ⟨3, true, 9⟩
      [⟨5, 80, 24, []⟩, ⟨9, 80, 24, []⟩] rfl (by decide) rfl
  · exact C6_pause_semantics.2.2 50 (fun x => x) ⟨0, true, 0⟩ ⟨0, false, 4⟩
      ⟨6, false, 10⟩ ⟨4, 80, 24, [.ok Key.space]⟩ ⟨10, 80, 24, []⟩ rfl rfl rfl rfl

/-- C7: on every exit of the loop scope — normal return (`true` or `false`)
or a panic — the trace of terminal writes ends with the `ConsoleReset`
restoration: show cursor, reset foreground color, reset background color. -/
theorem C7_guard_restores :
    ∀ (c : Nat) (banner : List Char → List Char) (t₀ : Nat) (frames : List Frame),
      scopeExits (runOps c banner t₀ frames).1 = true →
      ∃ pre, (runOps c banner t₀ frames).2 = pre ++ consoleResetOps :=
  fun _ _ _ _ h => runOps_guard h

/-- C7 witness: a natural-completion run and a panicking run (1x1 terminal)
both end their traces with the restoration writes. -/
theorem C7_witness :
    (scopeExits (runOps 0 (fun x => x) 0 [⟨0, 80, 24, []⟩, ⟨2, 80, 24, []⟩]).1 = true ∧
      ∃ pre, (runOps 0 (fun x => x) 0 [⟨0, 80, 24, []⟩, ⟨2, 80, 24, []⟩]).2 =
        pre ++ consoleResetOps) ∧
    (scopeExits (runOps 90 (fun x => x) 0 [⟨0, 1, 1, []⟩]).1 = true ∧
      ∃ pre, (runOps 90 (fun x => x) 0 [⟨0, 1, 1, []⟩]).2 = pre ++ consoleResetOps) :=
  ⟨⟨rfl, C7_guard_restores 0 (fun x => x) 0 _ rfl⟩,
   ⟨rfl, C7_guard_restores 90 (fun x => x) 0 _ rfl⟩⟩

/-- C8 (amended): the centering origin is computed as
`w/2 - (text_width as u16)/2` (and `h/2 - (lines as u16)/2 + i`) with no
clamping: when the truncated half-width exceeds `w/2` the u16 subtraction
underflows and the frame panics; otherwise the origin is exactly the
difference, which can be 0 — an invalid 1-based cursor column — as the final
conjunct shows. The claimed clamp to a minimum of 1 does not exist. -/
theorem C8_centering_no_clamp :
    (∀ (w h width nLines i : Nat), w / 2 < width % U16 / 2 →
      gotoCoords w h width nLines i = .error ()) ∧
    (∀ (w h width nLines i : Nat), width % U16 / 2 ≤ w / 2 →
      nLines % U16 / 2 ≤ h / 2 → h / 2 - nLines % U16 / 2 + i % U16 < U16 →
      gotoCoords w h width nLines i =
        .ok (w / 2 - width % U16 / 2, h / 2 - nLines % U16 / 2 + i % U16)) ∧
    (∀ (c : Nat) (banner : List Char → List Char) (st : LoopState) (f : Frame),
      newElapsed st f ≤ c →
      f.width / 2 <
        lineWidth (splitNl (banner (string_from_duration (c - newElapsed st f)))) % U16 / 2 →
      (stepFrame c banner st f).1 = .fault) ∧
    gotoCoords 2 24 2 1 0 = .ok (0, 12) :=
  ⟨fun _ _ _ _ _ hw => gotoCoords_underflow hw,
   fun _ _ _ _ _ h₁ h₂ h₃ => gotoCoords_ok h₁ h₂ h₃,
   fun _ _ _ _ he hw => stepFrame_underflow he hw, rfl⟩

/-- C8 counterexample: at a 1x1 terminal with remaining text `"1m30s"`
(width 5), the centering subtraction underflows and the run panics — the
claim's "never underflows, clamped to at least 1" is false. -/
theorem C8_counterexample :
    (runOps 90 (fun x => x) 0 [⟨0, 1, 1, []⟩]).1 = .fault := rfl

/-- C8 witness: an underflowing origin, a non-clamped exact origin, and a
panicking frame at concrete inputs. -/
theorem C8_witness :
    gotoCoords 1 1 5 1 0 = .error () ∧
    gotoCoords 80 24 5 1 0 = .ok (38, 12) ∧
    (stepFrame 90 (fun x => x) ⟨0, false, 0⟩ ⟨0, 1, 1, []⟩).1 = .fault :=
  ⟨C8_centering_no_clamp.1 1 1 5 1 0 (by decide),
   C8_centering_no_clamp.2.1 80 24 5 1 0 (by decide) (by decide) (by decide),
   C8_centering_no_clamp.2.2.1 90 (fun x => x) ⟨0, false, 0⟩ ⟨0, 1, 1, []⟩
     (by decide) (by decide)⟩

/-- C9 (amended): a key event that fails to decode is not skipped: the
drain `unwrap`s it and panics, aborting the loop, whenever it is reached
(after only space/other events) in a frame with time remaining. -/
theorem C9_bad_key_panics :
    (∀ (pre rest : List KeyEvent) (e : Unit) (p : Bool),
      (∀ x ∈ pre, x = .ok Key.space ∨ x = .ok Key.other) →
      processKeys (pre ++ .error e :: rest) p = .fault) ∧
    (∀ (c : Nat) (banner : List Char → List Char) (st : LoopState) (f : Frame)
      (pre rest : List KeyEvent) (e : Unit),
      newElapsed st f ≤ c →
      (renderFrame f.width f.height st.paused
        (banner (string_from_duration (c - newElapsed st f)))).2 = true →
      f.keys = pre ++ .error e :: rest →
      (∀ x ∈ pre, x = .ok Key.space ∨ x = .ok Key.other) →
      (stepFrame c banner st f).1 = .fault) :=
  ⟨fun pre _ _ p hpre => processKeys_fault_of hpre p,
   fun _ _ _ _ _ _ _ he hr hk hpre => stepFrame_fault_of_bad_key he hr hk hpre⟩

/-- C9 counterexample: a run whose only frame carries one malformed key
event panics — the loop aborts instead of skipping the event and
proceeding, refuting the claim. -/
theorem C9_counterexample :
    (runOps 90 (fun x => x) 0 [⟨0, 80, 24, [.error ()]⟩]).1 = .fault := rfl

/-- C9 witness: the drain and the full step panic at a concrete malformed
key event. -/
theorem C9_witness :
    processKeys [Except.error ()] false = .fault ∧
    (stepFrame 90 (fun x => x) ⟨0, false, 0⟩ ⟨0, 80, 24, [Except.error ()]⟩).1 = .fault :=
  ⟨C9_bad_key_panics.1 [] [] () false (by simp),
   C9_bad_key_panics.2 90 (fun x => x) ⟨0, false, 0⟩ ⟨0, 80, 24, [Except.error ()]⟩
     [] [] () (by decide) (by decide) rfl (by simp)⟩

/-- C10: `duration_from_string` ignores spaces at any position — parsing any
string equals parsing its space-stripped form, so a space may split a digit
run and the surrounding digits concatenate; in particular `"1 0s"` parses to
10 seconds. -/
theorem C10_spaces_anywhere :
    (∀ s : List Char, duration_from_string s =
      duration_from_string (s.filter (fun c => !(c == ' ')))) ∧
    duration_from_string ("1 0s".toList) = .ok 10 :=
  ⟨duration_from_string_filter_space, rfl⟩

end Act
